import Mathlib

/-!
Shallow embedding of `validate_ip` from `src/validate-ip.c`.

A C string (`const char*`) is modelled as `Option (List Char)`: `none` is the
NULL pointer, `some cs` a null-terminated string whose characters are `cs`.
Machine `int` is modelled as `Int`, with explicit two's-complement reduction
modulo 2^32 where the C code can overflow (inside `atoi`).
-/

namespace ValidateIp

/-- C `isdigit` from `<ctype.h>`, restricted to the byte values the program can
see: true exactly on the ASCII digits `'0'`..`'9'` (codes 48..57). -/
def isdigit (c : Char) : Bool := 48 ≤ c.toNat && c.toNat ≤ 57

/-- Base-10 value of a digit string: the accumulator loop every C decimal
parser performs (`acc = acc*10 + (c - '0')`). -/
def digitsVal (s : List Char) : Nat := s.foldl (fun a c => a * 10 + (c.toNat - 48)) 0

/-- Two's-complement reinterpretation of a mathematical natural as a signed
32-bit `int`: reduce modulo 2^32, then represent in [-2^31, 2^31). -/
def toInt32 (n : Nat) : Int :=
  let m := n % 4294967296
  if m < 2147483648 then (m : Int) else (m : Int) - 4294967296

/-- C `atoi` as applied at line 85 of `validate-ip.c`.  `atoi` converts the
longest leading digit run (every token that reaches this call is all digits,
since the first pass admits only digits and dots and `strtok` tokens contain
no dots; leading whitespace and signs therefore cannot occur).  On values that
exceed `int` the C behaviour is undefined; the model uses the usual
two's-complement wraparound. -/
def atoi (t : List Char) : Int := toInt32 (digitsVal (t.takeWhile isdigit))

/-- `sprintf(temp, "%d", num)` at line 96 of `validate-ip.c`: the canonical
decimal rendering of a signed int (a minus sign followed by the digits of the
absolute value when negative). -/
def sprintfD (n : Int) : List Char :=
  if n < 0 then '-' :: Nat.toDigits 10 n.natAbs else Nat.toDigits 10 n.toNat

/-- The first pass of `validate_ip` (lines 51-58): walk the characters once,
counting dots, and abort (`none`) at the first character that is neither a dot
nor a digit.  `some d` means every character was a dot or a digit and `d` dots
were counted. -/
def firstPass : List Char → Option Nat
  | [] => some 0
  | c :: rest =>
    if c = '.' then (firstPass rest).map (fun d => d + 1)
    else if isdigit c then firstPass rest
    else none

/-- Split a character list at every dot, keeping empty pieces: the segment
structure of the string (`n` dots give `n+1` pieces). -/
def splitDots : List Char → List (List Char)
  | [] => [[]]
  | c :: rest =>
    if c = '.' then [] :: splitDots rest
    else
      match splitDots rest with
      | [] => [[c]]
      | t :: ts => (c :: t) :: ts

/-- The token sequence produced by the `strtok(ptr, ".")` / `strtok(NULL, ".")`
calls at lines 67 and 102: `strtok` skips over runs of delimiters, so it yields
exactly the nonempty pieces of the dot-split, in order, and never an empty
token. -/
def strtokTokens (s : List Char) : List (List Char) :=
  (splitDots s).filter (fun t => !t.isEmpty)

/-- The body of the while loop (lines 71-104) for one token: empty-token check
(line 73, unreachable under `strtok`), leading-zero rule (line 80), `atoi`
range check (lines 85-90), and the sprintf round-trip comparison (lines
95-99).  `true` means the octet passed and the loop continues. -/
def octetOk (t : List Char) : Bool :=
  if t.length = 0 then false
  else if 1 < t.length ∧ t.headD ' ' = '0' then false
  else
    let num := atoi t
    if num < 0 ∨ 255 < num then false
    else if sprintfD num = t then true else false

/-- The `while (token != NULL && octet_count < 4)` loop of lines 71-110
together with the final `octet_count != 4` check: process tokens while any
remain and fewer than 4 octets have been handled, returning 0 at the first
failing octet, then demand exactly 4 processed. -/
def octetLoop : List (List Char) → Nat → Int
  | [], cnt => if cnt = 4 then 1 else 0
  | t :: rest, cnt =>
    if 4 ≤ cnt then (if cnt = 4 then 1 else 0)
    else if octetOk t then octetLoop rest (cnt + 1) else 0

/-- `validate_ip` (lines 20-114): NULL check, length gate [7,15] (the gate also
makes the `strcpy` into the 16-byte `ip_copy` in-bounds), the character/dot
first pass, the dot-count gate, and the `strtok` octet loop.  The loop runs on
the private copy, which at that point holds exactly the input characters. -/
def validate_ip (ip : Option (List Char)) : Int :=
  match ip with
  | none => 0
  | some s =>
    if s.length < 7 ∨ 15 < s.length then 0
    else
      match firstPass s with
      | none => 0
      | some dotCount =>
        if dotCount ≠ 3 then 0
        else octetLoop (strtokTokens s) 0

/-! ### Memory-explicit refinement (for the frame property)

The C function copies the input into the local array `ip_copy` (line 41)
because `strtok` destroys its argument; the caller's buffer is only ever
read (`strlen`, `ip[i]`, the `strcpy` source).  The definitions below make
the two buffers explicit and thread them through every step that the C code
performs, so that "the caller's string is unchanged" is a statement about
the model rather than a convention. -/

/-- The buffers live during a call of `validate_ip`: the caller's string and
the private `ip_copy[16]`. -/
structure VState where
  ipBuf : List Char
  copyBuf : List Char

/-- Effect of one `strtok` step on the buffer it tokenizes: the delimiter
terminating the returned token is overwritten with a NUL byte. -/
def replaceFirstDot : List Char → List Char
  | [] => []
  | c :: rest => if c = '.' then Char.ofNat 0 :: rest else c :: replaceFirstDot rest

/-- The octet loop with the two buffers threaded through: each iteration's
`strtok` call mutates only the private copy, and the verdict is computed as
in `octetLoop`. -/
def octetLoopSt : VState → List (List Char) → Nat → Int × VState
  | st, [], cnt => ((if cnt = 4 then 1 else 0), st)
  | st, t :: rest, cnt =>
    if 4 ≤ cnt then ((if cnt = 4 then 1 else 0), st)
    else
      let st2 : VState := ⟨st.ipBuf, replaceFirstDot st.copyBuf⟩
      if octetOk t then octetLoopSt st2 rest (cnt + 1) else (0, st2)

/-- `validate_ip` with the caller's buffer made explicit: returns the verdict
together with the caller's string as it stands when the function returns. -/
def validate_ip_st (ip : Option (List Char)) : Int × Option (List Char) :=
  match ip with
  | none => (0, none)
  | some s =>
    if s.length < 7 ∨ 15 < s.length then (0, some s)
    else
      match firstPass s with
      | none => (0, some s)
      | some dotCount =>
        if dotCount ≠ 3 then (0, some s)
        else
          let r := octetLoopSt ⟨s, s⟩ (strtokTokens s) 0
          (r.1, some r.2.ipBuf)

/-! ### The arguments handed to `atoi`

To reason about the `int num = atoi(token)` conversion at line 85 we record,
mirroring the control flow of the loop, exactly the tokens on which `atoi`
is invoked during a run: a token reaches `atoi` when the loop reaches it
(all earlier tokens passed every check) and it survives the empty-token and
leading-zero checks that precede the call. -/

/-- Tokens passed to `atoi` while the loop runs on `toks` with octet count
`cnt`. -/
def atoiArgsLoop : List (List Char) → Nat → List (List Char)
  | [], _ => []
  | t :: rest, cnt =>
    if 4 ≤ cnt then []
    else if t.length = 0 then []
    else if 1 < t.length ∧ t.headD ' ' = '0' then []
    else t :: (if octetOk t then atoiArgsLoop rest (cnt + 1) else [])

/-- All tokens on which `validate_ip` invokes `atoi` for a given input: none
when one of the gates before the loop already rejected. -/
def atoiArgs (ip : Option (List Char)) : List (List Char) :=
  match ip with
  | none => []
  | some s =>
    if s.length < 7 ∨ 15 < s.length then []
    else
      match firstPass s with
      | none => []
      | some dotCount =>
        if dotCount ≠ 3 then []
        else atoiArgsLoop (strtokTokens s) 0

/-! ### Facts about the octet loop -/

/-- The loop only ever produces the two C truth values 0 and 1. -/
lemma octetLoop_zero_or_one (toks : List (List Char)) (cnt : Nat) :
    octetLoop toks cnt = 0 ∨ octetLoop toks cnt = 1 := by
  induction toks generalizing cnt with
  | nil => by_cases h : cnt = 4 <;> simp [octetLoop, h]
  | cons t rest ih =>
    simp only [octetLoop]
    by_cases h4 : 4 ≤ cnt
    · by_cases h : cnt = 4 <;> simp [h4, h]
    · by_cases hok : octetOk t = true <;> simp [h4, hok, ih]

/-- A successful loop run starting from count `cnt` consumed at least `4 - cnt`
tokens. -/
lemma octetLoop_eq_one_le (toks : List (List Char)) (cnt : Nat)
    (h : octetLoop toks cnt = 1) : 4 ≤ cnt + toks.length := by
  induction toks generalizing cnt with
  | nil =>
    simp only [octetLoop] at h
    split at h
    · omega
    · exact absurd h (by decide)
  | cons t rest ih =>
    simp only [octetLoop] at h
    split at h
    · split at h
      · omega
      · exact absurd h (by decide)
    · split at h
      · have := ih (cnt + 1) h
        simp only [List.length_cons]
        omega
      · exact absurd h (by decide)

/-- When at most `4 - cnt` tokens remain, a successful run certifies every
remaining token. -/
lemma octetLoop_eq_one_all_ok (toks : List (List Char)) (cnt : Nat)
    (hle : toks.length + cnt ≤ 4) (h : octetLoop toks cnt = 1) :
    ∀ t ∈ toks, octetOk t = true := by
  induction toks generalizing cnt with
  | nil => intro t ht; exact absurd ht (List.not_mem_nil t)
  | cons t rest ih =>
    simp only [octetLoop] at h
    split at h
    · simp only [List.length_cons] at hle
      omega
    · split at h
      · intro u hu
        rcases List.mem_cons.1 hu with rfl | hu
        · assumption
        · exact ih (cnt + 1) (by simp only [List.length_cons] at hle; omega) h u hu
      · exact absurd h (by decide)

/-- `validate_ip` returns one of the C truth values 0 and 1. -/
lemma validate_ip_zero_or_one (ip : Option (List Char)) :
    validate_ip ip = 0 ∨ validate_ip ip = 1 := by
  match ip with
  | none => left; rfl
  | some s =>
    simp only [validate_ip]
    split
    · left; rfl
    · cases hfp : firstPass s with
      | none => left; rfl
      | some d =>
        by_cases hd : d = 3
        · subst hd
          have h0 : ¬ (3 : Nat) ≠ 3 := by omega
          simp only [if_neg h0]
          exact octetLoop_zero_or_one _ _
        · left
          simp only [if_pos hd]

/-! ### Facts about `splitDots` -/

/-- The dot-split of any string has at least one piece. -/
lemma splitDots_ne_nil (s : List Char) : splitDots s ≠ [] := by
  cases s with
  | nil => simp [splitDots]
  | cons c rest =>
    simp only [splitDots]
    split
    · simp
    · split <;> simp

/-- A string with `d` dots splits into `d + 1` pieces. -/
lemma splitDots_length (s : List Char) :
    (splitDots s).length = s.count '.' + 1 := by
  induction s with
  | nil => simp [splitDots]
  | cons c rest ih =>
    simp only [splitDots]
    by_cases h : c = '.'
    · subst h
      simp [List.count_cons, ih]
    · rw [if_neg h]
      have hne := splitDots_ne_nil rest
      match hm : splitDots rest with
      | [] => exact absurd hm hne
      | t :: ts =>
        rw [hm] at ih
        simp only [List.length_cons] at ih ⊢
        have : ((rest.count '.') + if ('.' : Char) = c then 1 else 0)
            = rest.count '.' := by
          simp [Ne.symm h]
        simp [List.count_cons, Ne.symm h]
        omega

/-- Peeling a dot-free prefix followed by a dot off the front of the split. -/
lemma splitDots_append_cons (A rest : List Char) (h : ∀ c ∈ A, ¬ c = '.') :
    splitDots (A ++ '.' :: rest) = A :: splitDots rest := by
  induction A with
  | nil => simp [splitDots]
  | cons a A ih =>
    have ha : ¬ a = '.' := h a (List.mem_cons_self a A)
    have hA : ∀ c ∈ A, ¬ c = '.' := fun c hc => h c (List.mem_cons_of_mem a hc)
    simp only [List.cons_append, splitDots, if_neg ha, List.append_eq]
    rw [ih hA]

/-- A dot-free string is a single piece. -/
lemma splitDots_single (A : List Char) (h : ∀ c ∈ A, ¬ c = '.') :
    splitDots A = [A] := by
  induction A with
  | nil => rfl
  | cons a A ih =>
    have ha : ¬ a = '.' := h a (List.mem_cons_self a A)
    have hA : ∀ c ∈ A, ¬ c = '.' := fun c hc => h c (List.mem_cons_of_mem a hc)
    simp only [splitDots, if_neg ha]
    rw [ih hA]

/-- Characters of a split piece are non-dot characters of the original
string. -/
lemma mem_splitDots_chars (s : List Char) :
    ∀ t ∈ splitDots s, ∀ c ∈ t, c ∈ s ∧ ¬ c = '.' := by
  induction s with
  | nil =>
    intro t ht c hc
    simp [splitDots] at ht
    subst ht
    exact absurd hc (List.not_mem_nil c)
  | cons a rest ih =>
    intro t ht c hc
    simp only [splitDots] at ht
    by_cases ha : a = '.'
    · rw [if_pos ha] at ht
      rcases List.mem_cons.1 ht with rfl | ht
      · exact absurd hc (List.not_mem_nil c)
      · have := ih t ht c hc
        exact ⟨List.mem_cons_of_mem a this.1, this.2⟩
    · rw [if_neg ha] at ht
      have hne := splitDots_ne_nil rest
      match hm : splitDots rest with
      | [] => exact absurd hm hne
      | u :: us =>
        rw [hm] at ht
        rcases List.mem_cons.1 ht with rfl | ht
        · rcases List.mem_cons.1 hc with rfl | hc
          · exact ⟨List.mem_cons_self c rest, ha⟩
          · have hu : u ∈ splitDots rest := by rw [hm]; exact List.mem_cons_self u us
            have := ih u hu c hc
            exact ⟨List.mem_cons_of_mem a this.1, this.2⟩
        · have hu : t ∈ splitDots rest := by rw [hm]; exact List.mem_cons_of_mem u ht
          have := ih t hu c hc
          exact ⟨List.mem_cons_of_mem a this.1, this.2⟩

/-- A split piece, together with the dots, fits inside the original string:
`|t| + (number of dots) ≤ |s|`. -/
lemma mem_splitDots_length (s : List Char) :
    ∀ t ∈ splitDots s, t.length + s.count '.' ≤ s.length := by
  induction s with
  | nil =>
    intro t ht
    simp [splitDots] at ht
    subst ht
    simp
  | cons a rest ih =>
    intro t ht
    simp only [splitDots] at ht
    by_cases ha : a = '.'
    · rw [if_pos ha] at ht
      subst ha
      have hcnt : (('.' : Char) :: rest).count '.' = rest.count '.' + 1 := by
        simp [List.count_cons]
      rcases List.mem_cons.1 ht with rfl | ht
      · have : rest.count '.' ≤ rest.length := List.count_le_length '.' rest
        simp only [List.length_nil, List.length_cons, hcnt]
        omega
      · have := ih t ht
        simp only [List.length_cons, hcnt]
        omega
    · rw [if_neg ha] at ht
      have hcnt : (a :: rest).count '.' = rest.count '.' := by
        simp [List.count_cons, Ne.symm ha]
      have hne := splitDots_ne_nil rest
      match hm : splitDots rest with
      | [] => exact absurd hm hne
      | u :: us =>
        rw [hm] at ht
        rcases List.mem_cons.1 ht with rfl | ht
        · have hu : u ∈ splitDots rest := by rw [hm]; exact List.mem_cons_self u us
          have := ih u hu
          simp only [List.length_cons, hcnt]
          omega
        · have hu : t ∈ splitDots rest := by rw [hm]; exact List.mem_cons_of_mem u ht
          have := ih t hu
          simp only [List.length_cons, hcnt]
          omega

/-! ### Facts about the first pass -/

/-- When every character is a dot or a digit, the first pass succeeds and
counts the dots. -/
lemma firstPass_some_of_good (s : List Char)
    (h : ∀ c ∈ s, c = '.' ∨ isdigit c = true) :
    firstPass s = some (s.count '.') := by
  induction s with
  | nil => rfl
  | cons c rest ih =>
    have hrest : ∀ x ∈ rest, x = '.' ∨ isdigit x = true :=
      fun x hx => h x (List.mem_cons_of_mem c hx)
    rcases h c (List.mem_cons_self c rest) with hc | hc
    · subst hc
      simp [firstPass, ih hrest, List.count_cons]
    · by_cases hdot : c = '.'
      · subst hdot
        simp [firstPass, ih hrest, List.count_cons]
      · simp [firstPass, hdot, hc, ih hrest, List.count_cons, Ne.symm hdot]

/-- When the first pass succeeds, every character was a dot or a digit and the
returned number is the dot count. -/
lemma firstPass_some_good (s : List Char) (d : Nat)
    (h : firstPass s = some d) :
    (∀ c ∈ s, c = '.' ∨ isdigit c = true) ∧ d = s.count '.' := by
  induction s generalizing d with
  | nil =>
    simp only [firstPass, Option.some.injEq] at h
    exact ⟨fun c hc => absurd hc (List.not_mem_nil c), by simp [h.symm]⟩
  | cons c rest ih =>
    simp only [firstPass] at h
    by_cases hdot : c = '.'
    · rw [if_pos hdot] at h
      cases hfp : firstPass rest with
      | none => rw [hfp] at h; exact absurd h (by simp)
      | some e =>
        rw [hfp] at h
        simp only [Option.map_some', Option.some.injEq] at h
        obtain ⟨hgood, hcnt⟩ := ih e hfp
        subst hdot
        refine ⟨?_, ?_⟩
        · intro x hx
          rcases List.mem_cons.1 hx with rfl | hx
          · exact Or.inl rfl
          · exact hgood x hx
        · simp [List.count_cons, ← h, hcnt]
    · rw [if_neg hdot] at h
      by_cases hdig : isdigit c = true
      · rw [if_pos hdig] at h
        obtain ⟨hgood, hcnt⟩ := ih d h
        refine ⟨?_, ?_⟩
        · intro x hx
          rcases List.mem_cons.1 hx with rfl | hx
          · exact Or.inr hdig
          · exact hgood x hx
        · simp [List.count_cons, Ne.symm hdot, hcnt]
      · rw [if_neg hdig] at h
        exact absurd h (by simp)

/-- A character that is neither a dot nor a digit makes the first pass abort. -/
lemma firstPass_none_of_bad (s : List Char) (c : Char) (hc : c ∈ s)
    (hdot : ¬ c = '.') (hdig : isdigit c = false) : firstPass s = none := by
  cases hfp : firstPass s with
  | none => rfl
  | some d =>
    have := (firstPass_some_good s d hfp).1 c hc
    rcases this with h | h
    · exact absurd h hdot
    · rw [hdig] at h
      exact absurd h (by simp)

/-! ### Generic list and digit lemmas -/

/-- Filtering out at least one element strictly shrinks a list. -/
lemma length_filter_lt_of_mem_false {α : Type} (p : α → Bool) (l : List α)
    (x : α) (hx : x ∈ l) (hpx : p x = false) :
    (l.filter p).length < l.length := by
  induction l with
  | nil => exact absurd hx (List.not_mem_nil x)
  | cons a l ih =>
    rcases List.mem_cons.1 hx with rfl | hx
    · simp only [List.filter, hpx, List.length_cons]
      have := List.length_filter_le p l
      omega
    · cases hpa : p a with
      | true =>
        simp only [List.filter, hpa, List.length_cons]
        have := ih hx
        omega
      | false =>
        simp only [List.filter, hpa, List.length_cons]
        have := ih hx
        omega

/-- The decimal accumulator on a digit list, started at `a`, stays below
`(a + 1) * 10 ^ length`. -/
lemma digits_foldl_lt (l : List Char) :
    ∀ a : Nat, (∀ c ∈ l, isdigit c = true) →
      l.foldl (fun a c => a * 10 + (c.toNat - 48)) a < (a + 1) * 10 ^ l.length := by
  induction l with
  | nil => intro a _; simp
  | cons c l ih =>
    intro a h
    have hc : isdigit c = true := h c (List.mem_cons_self c l)
    have hd : c.toNat - 48 ≤ 9 := by
      simp only [isdigit, Bool.and_eq_true, decide_eq_true_eq] at hc
      omega
    have hl : ∀ x ∈ l, isdigit x = true := fun x hx => h x (List.mem_cons_of_mem c hx)
    have step := ih (a * 10 + (c.toNat - 48)) hl
    have hmul : (a * 10 + (c.toNat - 48) + 1) * 10 ^ l.length
        ≤ (a + 1) * 10 ^ (l.length + 1) := by
      have : a * 10 + (c.toNat - 48) + 1 ≤ (a + 1) * 10 := by omega
      calc (a * 10 + (c.toNat - 48) + 1) * 10 ^ l.length
          ≤ (a + 1) * 10 * 10 ^ l.length := Nat.mul_le_mul_right _ this
        _ = (a + 1) * 10 ^ (l.length + 1) := by ring
    simp only [List.foldl_cons, List.length_cons]
    exact lt_of_lt_of_le step hmul

/-- A digit string of length `k` denotes a value below `10 ^ k`. -/
lemma digitsVal_lt (t : List Char) (h : ∀ c ∈ t, isdigit c = true) :
    digitsVal t < 10 ^ t.length := by
  have := digits_foldl_lt t 0 h
  simpa [digitsVal] using this

/-- An all-digit token is its own longest digit prefix. -/
lemma takeWhile_isdigit_eq_self (t : List Char) (h : ∀ c ∈ t, isdigit c = true) :
    t.takeWhile isdigit = t := by
  induction t with
  | nil => rfl
  | cons c l ih =>
    have hc : isdigit c = true := h c (List.mem_cons_self c l)
    have hl : ∀ x ∈ l, isdigit x = true := fun x hx => h x (List.mem_cons_of_mem c hx)
    simp [List.takeWhile, hc, ih hl]

set_option maxRecDepth 8000 in
/-- Exhaustive check over the 256 octet values: the canonical decimal
rendering of `n ≤ 255` is 1-3 digit characters, contains no dot, denotes `n`,
and passes every check of the loop body. -/
lemma canonical_octet_facts : ∀ n : Nat, n < 256 →
    octetOk (Nat.toDigits 10 n) = true ∧
    1 ≤ (Nat.toDigits 10 n).length ∧ (Nat.toDigits 10 n).length ≤ 3 ∧
    digitsVal (Nat.toDigits 10 n) = n ∧
    (∀ c ∈ Nat.toDigits 10 n, isdigit c = true ∧ ¬ c = '.') := by
  decide

/-! ### Inversion and octet-failure lemmas -/

/-- Whatever an accepting run tells us: both gates passed, the dot count is 3,
and the octet loop accepted. -/
lemma validate_ip_eq_one_inv (s : List Char) (h : validate_ip (some s) = 1) :
    (7 ≤ s.length ∧ s.length ≤ 15) ∧ (∀ c ∈ s, c = '.' ∨ isdigit c = true) ∧
    s.count '.' = 3 ∧ octetLoop (strtokTokens s) 0 = 1 := by
  simp only [validate_ip] at h
  split at h
  · exact absurd h (by decide)
  · rename_i hlen
    cases hfp : firstPass s with
    | none => simp only [hfp] at h; exact absurd h (by decide)
    | some d =>
      simp only [hfp] at h
      obtain ⟨hgood, hcnt⟩ := firstPass_some_good s d hfp
      by_cases hd : d = 3
      · subst hd
        have h0 : ¬ (3 : Nat) ≠ 3 := by omega
        rw [if_neg h0] at h
        exact ⟨by omega, hgood, hcnt.symm, h⟩
      · rw [if_pos hd] at h
        exact absurd h (by decide)

/-- When all gates pass with dot count 3, the verdict is the loop's verdict. -/
lemma validate_ip_eq_loop (s : List Char)
    (hlen : ¬ (s.length < 7 ∨ 15 < s.length))
    (hfp : firstPass s = some 3) :
    validate_ip (some s) = octetLoop (strtokTokens s) 0 := by
  simp only [validate_ip, hfp, if_neg hlen]
  have h0 : ¬ (3 : Nat) ≠ 3 := by omega
  rw [if_neg h0]

/-- A multi-character segment starting with the character `'0'` fails the
leading-zero check of the loop body. -/
lemma octetOk_false_of_leading_zero (seg : List Char)
    (hlen : 1 < seg.length) (hhead : seg.head? = some '0') :
    octetOk seg = false := by
  cases seg with
  | nil => simp at hlen
  | cons c cs =>
    simp only [List.head?_cons, Option.some.injEq] at hhead
    subst hhead
    simp only [octetOk]
    rw [if_neg, if_pos]
    · exact ⟨hlen, rfl⟩
    · simp

/-- An all-digit segment denoting a value above 255 fails the loop body: if
the wrapped `atoi` result is out of range the range check fires, and if the
wraparound lands in range the sprintf round-trip comparison fires. -/
lemma octetOk_false_of_overlarge (seg : List Char)
    (hdig : ∀ c ∈ seg, isdigit c = true) (hbig : 255 < digitsVal seg) :
    octetOk seg = false := by
  simp only [octetOk]
  split
  · rfl
  · split
    · rfl
    · split
      · rfl
      · rename_i hrange
        rw [if_neg]
        intro heq
        have hnum : atoi seg = toInt32 (digitsVal seg) := by
          simp only [atoi, takeWhile_isdigit_eq_self seg hdig]
        rw [not_or, not_lt, not_lt] at hrange
        obtain ⟨h0, h255⟩ := hrange
        have hm : (atoi seg).toNat < 256 := by omega
        have hsp : sprintfD (atoi seg) = Nat.toDigits 10 (atoi seg).toNat := by
          simp only [sprintfD, if_neg (not_lt.2 h0)]
        have hval := (canonical_octet_facts (atoi seg).toNat hm).2.2.2.1
        rw [hsp] at heq
        rw [heq] at hval
        omega

/-- Tokens recorded by `atoiArgsLoop` come from the token list. -/
lemma mem_atoiArgsLoop (toks : List (List Char)) (cnt : Nat) :
    ∀ t ∈ atoiArgsLoop toks cnt, t ∈ toks := by
  induction toks generalizing cnt with
  | nil => intro t ht; exact absurd ht (List.not_mem_nil t)
  | cons u rest ih =>
    intro t ht
    simp only [atoiArgsLoop] at ht
    split at ht
    · exact absurd ht (List.not_mem_nil t)
    · split at ht
      · exact absurd ht (List.not_mem_nil t)
      · split at ht
        · exact absurd ht (List.not_mem_nil t)
        · rcases List.mem_cons.1 ht with rfl | ht
          · exact List.mem_cons_self t rest
          · split at ht
            · exact List.mem_cons_of_mem u (ih (cnt + 1) t ht)
            · exact absurd ht (List.not_mem_nil t)

/-- The state-threaded loop never touches the caller's buffer and computes
the same verdict as `octetLoop`. -/
lemma octetLoopSt_frame (toks : List (List Char)) :
    ∀ st cnt, (octetLoopSt st toks cnt).2.ipBuf = st.ipBuf ∧
      (octetLoopSt st toks cnt).1 = octetLoop toks cnt := by
  induction toks with
  | nil => intro st cnt; exact ⟨rfl, rfl⟩
  | cons t rest ih =>
    intro st cnt
    simp only [octetLoopSt, octetLoop]
    split
    · exact ⟨rfl, rfl⟩
    · split
      · exact ih _ (cnt + 1)
      · exact ⟨rfl, rfl⟩

/-! ### Claim theorems -/

/-- C2: for every input — including the empty string, arbitrary strings, and
the NULL pointer — `validate_ip` terminates (it is a total function of the
model) and returns one of the boolean verdicts 0 and 1; a NULL or empty
candidate yields 0, not an error. -/
theorem validate_ip_total_boolean :
    (∀ ip : Option (List Char), validate_ip ip = 0 ∨ validate_ip ip = 1) ∧
    validate_ip none = 0 ∧ validate_ip (some []) = 0 :=
  ⟨validate_ip_zero_or_one, rfl, by decide⟩

/-- C3: any input shorter than 7 or longer than 15 characters is rejected,
regardless of content. -/
theorem validate_ip_length_gate (s : List Char)
    (h : s.length < 7 ∨ 15 < s.length) : validate_ip (some s) = 0 := by
  simp only [validate_ip, if_pos h]

/-- Witness for C3 at the 5-character input "1.2.3". -/
theorem validate_ip_length_gate_witness :
    (("1.2.3".toList).length < 7 ∨ 15 < ("1.2.3".toList).length) ∧
    validate_ip (some ("1.2.3".toList)) = 0 :=
  ⟨by decide, validate_ip_length_gate _ (by decide)⟩

/-- C7: any input containing a character that is neither an ASCII digit nor a
dot is rejected. -/
theorem validate_ip_charset_gate (s : List Char) (c : Char) (hc : c ∈ s)
    (hdot : ¬ c = '.') (hdig : isdigit c = false) : validate_ip (some s) = 0 := by
  simp only [validate_ip]
  split
  · rfl
  · simp only [firstPass_none_of_bad s c hc hdot hdig]

/-- Witness for C7 at "1.2.3.a" with the bad character 'a'. -/
theorem validate_ip_charset_gate_witness :
    ('a' ∈ "1.2.3.a".toList ∧ ¬ 'a' = '.' ∧ isdigit 'a' = false) ∧
    validate_ip (some ("1.2.3.a".toList)) = 0 :=
  ⟨⟨by decide, by decide, by decide⟩,
   validate_ip_charset_gate _ 'a' (by decide) (by decide) (by decide)⟩

/-- C8: any input whose number of dot characters is not exactly 3 is
rejected. -/
theorem validate_ip_dot_count_gate (s : List Char)
    (h : s.count '.' ≠ 3) : validate_ip (some s) = 0 := by
  simp only [validate_ip]
  split
  · rfl
  · cases hfp : firstPass s with
    | none => rfl
    | some d =>
      have hd : d ≠ 3 := by
        have := (firstPass_some_good s d hfp).2
        omega
      show (if d ≠ 3 then (0 : Int) else octetLoop (strtokTokens s) 0) = 0
      rw [if_pos hd]

/-- Witness for C8 at "192.168.1", which has 2 dots. -/
theorem validate_ip_dot_count_gate_witness :
    (("192.168.1".toList).count '.' ≠ 3) ∧
    validate_ip (some ("192.168.1".toList)) = 0 :=
  ⟨by decide, validate_ip_dot_count_gate _ (by decide)⟩

/-- C6: any input one of whose dot-separated segments is empty — a leading
dot, a trailing dot, or two consecutive dots — is rejected: with 3 dots an
empty segment leaves `strtok` fewer than 4 tokens, so the final
`octet_count != 4` check fires even though `strtok` itself skips the empty
segment. -/
theorem validate_ip_empty_segment_rejected (s : List Char)
    (hseg : [] ∈ splitDots s) : validate_ip (some s) = 0 := by
  rcases validate_ip_zero_or_one (some s) with h | h
  · exact h
  · exfalso
    obtain ⟨-, -, hcnt, hloop⟩ := validate_ip_eq_one_inv s h
    have hlt : (strtokTokens s).length < (splitDots s).length :=
      length_filter_lt_of_mem_false _ _ [] hseg (by rfl)
    have h2 := splitDots_length s
    have h3 := octetLoop_eq_one_le _ _ hloop
    omega

/-- Witness for C6 at "192..1.1" (consecutive dots: an empty segment). -/
theorem validate_ip_empty_segment_rejected_witness :
    ([] ∈ splitDots ("192..1.1".toList)) ∧
    validate_ip (some ("192..1.1".toList)) = 0 :=
  ⟨by decide, validate_ip_empty_segment_rejected _ (by decide)⟩

/-- C4: any input one of whose dot-separated segments has more than one
character and starts with '0' is rejected, while the single-character
segment "0" is not rejected by this rule: "0.0.0.0" validates. -/
theorem validate_ip_leading_zero_rejected :
    (∀ s seg : List Char, seg ∈ splitDots s → 1 < seg.length →
      seg.head? = some '0' → validate_ip (some s) = 0) ∧
    validate_ip (some ("0.0.0.0".toList)) = 1 := by
  constructor
  · intro s seg hseg hlen hhead
    rcases validate_ip_zero_or_one (some s) with h | h
    · exact h
    · exfalso
      obtain ⟨-, -, hcnt, hloop⟩ := validate_ip_eq_one_inv s h
      have h1 : (strtokTokens s).length ≤ (splitDots s).length :=
        List.length_filter_le _ _
      have h2 := splitDots_length s
      have hmem : seg ∈ strtokTokens s := by
        simp only [strtokTokens, List.mem_filter]
        refine ⟨hseg, ?_⟩
        cases seg with
        | nil => simp at hlen
        | cons a l => rfl
      have hok := octetLoop_eq_one_all_ok _ 0 (by omega) hloop seg hmem
      rw [octetOk_false_of_leading_zero seg hlen hhead] at hok
      exact absurd hok (by decide)
  · decide

/-- Witness for C4 at "01.2.3.4", whose first segment is "01". -/
theorem validate_ip_leading_zero_rejected_witness :
    ("01".toList ∈ splitDots ("01.2.3.4".toList) ∧ 1 < ("01".toList).length ∧
      ("01".toList).head? = some '0') ∧
    validate_ip (some ("01.2.3.4".toList)) = 0 :=
  ⟨⟨by decide, by decide, by decide⟩,
   validate_ip_leading_zero_rejected.1 ("01.2.3.4".toList) ("01".toList)
     (by decide) (by decide) (by decide)⟩

/-- C5: any input one of whose dot-separated segments is a numeral denoting a
value above 255 is rejected — also when the value is so large that the
32-bit `atoi` conversion wraps around into [0, 255], in which case the
sprintf round-trip comparison fires. -/
theorem validate_ip_overlarge_segment_rejected (s seg : List Char)
    (hseg : seg ∈ splitDots s) (hdig : ∀ c ∈ seg, isdigit c = true)
    (hbig : 255 < digitsVal seg) : validate_ip (some s) = 0 := by
  rcases validate_ip_zero_or_one (some s) with h | h
  · exact h
  · exfalso
    obtain ⟨-, -, hcnt, hloop⟩ := validate_ip_eq_one_inv s h
    have h1 : (strtokTokens s).length ≤ (splitDots s).length :=
      List.length_filter_le _ _
    have h2 := splitDots_length s
    have hne : seg ≠ [] := by
      intro heq
      rw [heq] at hbig
      exact absurd hbig (by decide)
    have hmem : seg ∈ strtokTokens s := by
      simp only [strtokTokens, List.mem_filter]
      refine ⟨hseg, ?_⟩
      cases seg with
      | nil => exact absurd rfl hne
      | cons a l => rfl
    have hok := octetLoop_eq_one_all_ok _ 0 (by omega) hloop seg hmem
    rw [octetOk_false_of_overlarge seg hdig hbig] at hok
    exact absurd hok (by decide)

/-- Witness for C5 at "4294967296...": the segment "4294967296" equals 2^32,
whose 32-bit wraparound is the in-range value 0, caught by the round-trip
comparison. -/
theorem validate_ip_overlarge_segment_rejected_witness :
    ("4294967296".toList ∈ splitDots ("4294967296...".toList) ∧
      (∀ c ∈ "4294967296".toList, isdigit c = true) ∧
      255 < digitsVal ("4294967296".toList)) ∧
    validate_ip (some ("4294967296...".toList)) = 0 :=
  ⟨⟨by decide, by decide, by decide⟩,
   validate_ip_overlarge_segment_rejected ("4294967296...".toList)
     ("4294967296".toList) (by decide) (by decide) (by decide)⟩

/-- C9: the caller's candidate string is unchanged when `validate_ip`
returns — the destructive `strtok` tokenization runs on the private copy
only — and the memory-explicit run computes the same verdict as the pure
model. -/
theorem validate_ip_preserves_input (ip : Option (List Char)) :
    (validate_ip_st ip).2 = ip ∧ (validate_ip_st ip).1 = validate_ip ip := by
  match ip with
  | none => exact ⟨rfl, rfl⟩
  | some s =>
    by_cases hlen : s.length < 7 ∨ 15 < s.length
    · simp only [validate_ip_st, validate_ip, if_pos hlen]
      exact ⟨by trivial, by trivial⟩
    · cases hfp : firstPass s with
      | none =>
        simp only [validate_ip_st, validate_ip, if_neg hlen, hfp]
        exact ⟨by trivial, by trivial⟩
      | some d =>
        by_cases hd : d ≠ 3
        · simp only [validate_ip_st, validate_ip, if_neg hlen, hfp, if_pos hd]
          exact ⟨by trivial, by trivial⟩
        · have h := octetLoopSt_frame (strtokTokens s) ⟨s, s⟩ 0
          simp only [validate_ip_st, validate_ip, if_neg hlen, hfp, if_neg hd]
          exact ⟨congrArg some h.1, h.2⟩

/-- C1: for all a, b, c, d in [0,255], the string built from their canonical
decimal renderings joined with single dots is accepted. -/
theorem validate_ip_canonical_quad_valid (a b c d : Nat)
    (ha : a ≤ 255) (hb : b ≤ 255) (hc : c ≤ 255) (hd : d ≤ 255) :
    validate_ip (some (Nat.toDigits 10 a ++ '.' ::
      (Nat.toDigits 10 b ++ '.' :: (Nat.toDigits 10 c ++ '.' ::
        Nat.toDigits 10 d)))) = 1 := by
  obtain ⟨hokA, h1A, h3A, -, hchA⟩ := canonical_octet_facts a (by omega)
  obtain ⟨hokB, h1B, h3B, -, hchB⟩ := canonical_octet_facts b (by omega)
  obtain ⟨hokC, h1C, h3C, -, hchC⟩ := canonical_octet_facts c (by omega)
  obtain ⟨hokD, h1D, h3D, -, hchD⟩ := canonical_octet_facts d (by omega)
  set A := Nat.toDigits 10 a with hadef
  set B := Nat.toDigits 10 b with hbdef
  set C := Nat.toDigits 10 c with hcdef
  set D := Nat.toDigits 10 d with hddef
  have hnodotA : ∀ x ∈ A, ¬ x = '.' := fun x hx => (hchA x hx).2
  have hnodotB : ∀ x ∈ B, ¬ x = '.' := fun x hx => (hchB x hx).2
  have hnodotC : ∀ x ∈ C, ¬ x = '.' := fun x hx => (hchC x hx).2
  have hnodotD : ∀ x ∈ D, ¬ x = '.' := fun x hx => (hchD x hx).2
  have hlen : ¬ ((A ++ '.' :: (B ++ '.' :: (C ++ '.' :: D))).length < 7 ∨
      15 < (A ++ '.' :: (B ++ '.' :: (C ++ '.' :: D))).length) := by
    simp only [List.length_append, List.length_cons]
    omega
  have hgood : ∀ x ∈ A ++ '.' :: (B ++ '.' :: (C ++ '.' :: D)),
      x = '.' ∨ isdigit x = true := by
    intro x hx
    simp only [List.mem_append, List.mem_cons] at hx
    rcases hx with h | h | h | h | h | h | h
    · exact Or.inr (hchA x h).1
    · exact Or.inl h
    · exact Or.inr (hchB x h).1
    · exact Or.inl h
    · exact Or.inr (hchC x h).1
    · exact Or.inl h
    · exact Or.inr (hchD x h).1
  have hcount : (A ++ '.' :: (B ++ '.' :: (C ++ '.' :: D))).count '.' = 3 := by
    have cA : A.count '.' = 0 := List.count_eq_zero.2 (fun hm => (hchA '.' hm).2 rfl)
    have cB : B.count '.' = 0 := List.count_eq_zero.2 (fun hm => (hchB '.' hm).2 rfl)
    have cC : C.count '.' = 0 := List.count_eq_zero.2 (fun hm => (hchC '.' hm).2 rfl)
    have cD : D.count '.' = 0 := List.count_eq_zero.2 (fun hm => (hchD '.' hm).2 rfl)
    simp [List.count_append, List.count_cons, cA, cB, cC, cD]
  have hfp : firstPass (A ++ '.' :: (B ++ '.' :: (C ++ '.' :: D))) = some 3 := by
    rw [firstPass_some_of_good _ hgood, hcount]
  have hneA : A.isEmpty = false := by
    cases hA : A with
    | nil => rw [hA] at h1A; simp at h1A
    | cons x l => rfl
  have hneB : B.isEmpty = false := by
    cases hB : B with
    | nil => rw [hB] at h1B; simp at h1B
    | cons x l => rfl
  have hneC : C.isEmpty = false := by
    cases hC : C with
    | nil => rw [hC] at h1C; simp at h1C
    | cons x l => rfl
  have hneD : D.isEmpty = false := by
    cases hD : D with
    | nil => rw [hD] at h1D; simp at h1D
    | cons x l => rfl
  have htoks : strtokTokens (A ++ '.' :: (B ++ '.' :: (C ++ '.' :: D)))
      = [A, B, C, D] := by
    unfold strtokTokens
    rw [splitDots_append_cons _ _ hnodotA, splitDots_append_cons _ _ hnodotB,
      splitDots_append_cons _ _ hnodotC, splitDots_single D hnodotD]
    simp [List.filter, hneA, hneB, hneC, hneD]
  rw [validate_ip_eq_loop _ hlen hfp, htoks]
  simp [octetLoop, hokA, hokB, hokC, hokD]

/-- Witness for C1 at the quad (192, 168, 1, 1). -/
theorem validate_ip_canonical_quad_valid_witness :
    (192 ≤ 255 ∧ 168 ≤ 255 ∧ 1 ≤ 255) ∧
    validate_ip (some (Nat.toDigits 10 192 ++ '.' :: (Nat.toDigits 10 168 ++ '.' ::
      (Nat.toDigits 10 1 ++ '.' :: Nat.toDigits 10 1)))) = 1 :=
  ⟨⟨by decide, by decide, by decide⟩,
   validate_ip_canonical_quad_valid 192 168 1 1
     (by decide) (by decide) (by decide) (by decide)⟩

/-- C10 counterexample: the claim "every token reaching `atoi` fits a signed
32-bit int" is false.  On the 15-character input "999999999999..." (twelve
nines, then three dots: length 15, exactly 3 dots, only digits and dots) the
first `strtok` token — twelve nines — reaches the `atoi` call, and its value
999999999999 exceeds 2^31 - 1 = 2147483647. -/
theorem atoi_arg_exceeds_int32 :
    ∃ t, t ∈ atoiArgs (some ("999999999999...".toList)) ∧
      2147483648 ≤ digitsVal t :=
  ⟨"999999999999".toList, by decide, by decide⟩

/-- C10 amended: every token that reaches the `atoi` call inside
`validate_ip` is an all-digit string of at most 12 characters, so its value
is below 10^12 — representable in a signed 64-bit integer, but not
necessarily in the signed 32-bit `int` the code converts into. -/
theorem atoi_args_bounded (ip : Option (List Char)) (t : List Char)
    (ht : t ∈ atoiArgs ip) :
    t.length ≤ 12 ∧ (∀ c ∈ t, isdigit c = true) ∧ digitsVal t < 10 ^ 12 := by
  match ip with
  | none => exact absurd ht (List.not_mem_nil t)
  | some s =>
    simp only [atoiArgs] at ht
    split at ht
    · exact absurd ht (List.not_mem_nil t)
    · rename_i hlen
      cases hfp : firstPass s with
      | none =>
        simp only [hfp] at ht
        exact absurd ht (List.not_mem_nil t)
      | some d =>
        simp only [hfp] at ht
        obtain ⟨hgood, hcnt⟩ := firstPass_some_good s d hfp
        split at ht
        · exact absurd ht (List.not_mem_nil t)
        · rename_i hd
          have hd3 : d = 3 := by omega
          have htok : t ∈ strtokTokens s := mem_atoiArgsLoop _ _ t ht
          have hsplit : t ∈ splitDots s := (List.mem_filter.1 htok).1
          have hdig : ∀ c ∈ t, isdigit c = true := by
            intro c hcin
            obtain ⟨hcs, hcdot⟩ := mem_splitDots_chars s t hsplit c hcin
            rcases hgood c hcs with h | h
            · exact absurd h hcdot
            · exact h
          have hlen12 : t.length ≤ 12 := by
            have := mem_splitDots_length s t hsplit
            rw [not_or, not_lt, not_lt] at hlen
            omega
          refine ⟨hlen12, hdig, ?_⟩
          have hv := digitsVal_lt t hdig
          have hppow : (10 : Nat) ^ t.length ≤ 10 ^ 12 :=
        Nat.pow_le_pow_right (by omega) hlen12
          exact lt_of_lt_of_le hv hppow

/-- Witness for the amended C10 at the token "192" of "192.168.1.1". -/
theorem atoi_args_bounded_witness :
    ("192".toList ∈ atoiArgs (some ("192.168.1.1".toList))) ∧
    ("192".toList).length ≤ 12 ∧ (∀ c ∈ "192".toList, isdigit c = true) ∧
    digitsVal ("192".toList) < 10 ^ 12 :=
  ⟨by decide,
   atoi_args_bounded (some ("192.168.1.1".toList)) ("192".toList) (by decide)⟩

example : validate_ip (some "192.168.1.1".toList) = 1 := by decide
example : validate_ip (some "0.0.0.0".toList) = 1 := by decide
example : validate_ip (some "255.255.255.255".toList) = 1 := by decide
example : validate_ip (some "192.168.01.1".toList) = 0 := by decide
example : validate_ip (some "256.1.1.1".toList) = 0 := by decide
example : validate_ip (some "192..1.1".toList) = 0 := by decide
example : validate_ip (some "1.1.1.1.".toList) = 0 := by decide
example : validate_ip (some "192.168.1".toList) = 0 := by decide
example : validate_ip (some "1.2.3.a".toList) = 0 := by decide
example : validate_ip (some "".toList) = 0 := by decide
example : validate_ip none = 0 := by decide
example : validate_ip (some "4294967296...".toList) = 0 := by decide
example : validate_ip (some "999999999999...".toList) = 0 := by decide

end ValidateIp
